import Mathlib

/-
  Verification development for the chess rules engine and search AI.

  The Go sources are shallowly embedded: pointers to `Piece` become
  `Option Piece` values stored in squares (piece ownership is exclusive to
  the square holding it, so value semantics is faithful); the in-place
  mutation `piece.HasMoved = true` performed by `Board.MovePiece` is
  modelled by storing the piece with its flag set; Go strings are byte
  lists (`GoStr`), with byte arithmetic taken modulo 256 exactly as Go
  computes `notation[0] - 'a'`; Go `float64` scores are modelled over `ℚ`
  extended with the two infinities (every score the search manipulates on
  the paths the claims talk about is an exact small decimal, so no
  rounding behaviour is lost); stateful functions return their updated
  state explicitly.
-/

namespace Chess

/-- Go `Color` enumeration (`White = 0`, `Black = 1`). -/
inductive Color where
  | White
  | Black
deriving DecidableEq, Repr

/-- Go `PieceType` enumeration, in declaration order (`King = 0` … `Pawn = 5`). -/
inductive PieceType where
  | King
  | Queen
  | Rook
  | Bishop
  | Knight
  | Pawn
deriving DecidableEq, Repr

/-- Go `Piece` struct: kind, color and the `HasMoved` bookkeeping flag. -/
structure Piece where
  type : PieceType
  color : Color
  hasMoved : Bool
deriving DecidableEq, Repr

/-- Go `NewPiece`: a fresh piece with `HasMoved = false`. -/
def NewPiece (pieceType : PieceType) (color : Color) : Piece :=
  ⟨pieceType, color, false⟩

/-- Go `Position`: integer row and column. -/
structure Position where
  Row : Int
  Col : Int
deriving DecidableEq, Repr

/-- Go `NewPosition`. -/
def NewPosition (row col : Int) : Position :=
  ⟨row, col⟩

/-- Go `Position.IsValid`: both components in `[0,7]`. -/
def Position.IsValid (p : Position) : Bool :=
  decide (0 ≤ p.Row ∧ p.Row < 8 ∧ 0 ≤ p.Col ∧ p.Col < 8)

theorem Position.isValid_iff (p : Position) :
    p.IsValid = true ↔ (0 ≤ p.Row ∧ p.Row < 8 ∧ 0 ≤ p.Col ∧ p.Col < 8) := by
  simp [Position.IsValid]

/-- Go strings modelled as their byte sequences. -/
abbrev GoStr := List Nat

/-- The bytes of the literal `"invalid"` returned by `Position.String`
for an off-board position. -/
def invalidStr : GoStr := [105, 110, 118, 97, 108, 105, 100]

/-- Go `Position.String`: `"invalid"` off board, otherwise the byte
`'a' + Col` followed by the single decimal digit of `8 - Row`. -/
def Position.String (p : Position) : GoStr :=
  if ¬ (p.IsValid = true) then invalidStr
  else [(97 + p.Col).toNat, (56 - p.Row).toNat]

/-- The two distinct parse failures of `FromAlgebraic`
(`"invalid notation"` for a bad length, `"invalid position"` for an
out-of-range coordinate). -/
inductive ParseError where
  | invalidNotation
  | invalidPosition
deriving DecidableEq, Repr

/-- Go `FromAlgebraic`. `notation[0] - 'a'` and `notation[1] - '0'` are
byte subtractions, i.e. taken modulo 256, before widening to `int`. -/
def FromAlgebraic (s : GoStr) : Except ParseError Position :=
  if s.length ≠ 2 then .error .invalidNotation
  else
    let col : Int := ((s.getD 0 0 + 256 - 97) % 256 : Nat)
    let row : Int := 8 - (((s.getD 1 0 + 256 - 48) % 256 : Nat) : Int)
    let pos : Position := ⟨row, col⟩
    if ¬ (pos.IsValid = true) then .error .invalidPosition
    else .ok pos

/-- Go `Move`: an ordered pair of positions. -/
structure Move where
  From : Position
  To : Position
deriving DecidableEq, Repr

/-- Go `NewMove`. -/
def NewMove (f t : Position) : Move :=
  ⟨f, t⟩

/-- Row-major index of an on-board position into the flattened 8×8 grid. -/
def Position.idx (p : Position) : Nat :=
  (p.Row * 8 + p.Col).toNat

theorem Position.idx_lt {p : Position} (h : p.IsValid = true) : p.idx < 64 := by
  rw [Position.isValid_iff] at h
  unfold Position.idx
  omega

theorem Position.idx_inj {p q : Position} (hp : p.IsValid = true)
    (hq : q.IsValid = true) (h : p.idx = q.idx) : p = q := by
  rw [Position.isValid_iff] at hp hq
  unfold Position.idx at h
  cases p; cases q
  simp only at hp hq h
  simp only [Position.mk.injEq]
  omega

/-- Go `Board`: an 8×8 array of optional pieces, flattened row-major.
`squares[row][col]` of the source is `squares ⟨row*8+col, _⟩` here. -/
structure Board where
  squares : Fin 64 → Option Piece

/-- Go `Board.GetPiece`: the piece at `pos`, `nothing` off board. -/
def Board.GetPiece (b : Board) (pos : Position) : Option Piece :=
  if h : pos.IsValid = true then b.squares ⟨pos.idx, Position.idx_lt h⟩ else none

/-- Go `Board.SetPiece`: replace a square's contents; off-board writes are
silently dropped. -/
def Board.SetPiece (b : Board) (pos : Position) (piece : Option Piece) : Board :=
  if h : pos.IsValid = true then
    ⟨Function.update b.squares ⟨pos.idx, Position.idx_lt h⟩ piece⟩
  else b

/-- Go `Board.MovePiece`: raw relocation primitive; fails if either end
is off board or `f` is empty. The source also performs
`piece.HasMoved = true` through the pointer now stored at `t`; with value
semantics this is the flag set on the stored piece. -/
def Board.MovePiece (b : Board) (f t : Position) : Board × Bool :=
  if ¬ (f.IsValid = true) ∨ ¬ (t.IsValid = true) then (b, false)
  else
    match b.GetPiece f with
    | none => (b, false)
    | some piece =>
      (((b.SetPiece t (some { piece with hasMoved := true })).SetPiece f none), true)

/-- The 64 board squares in the row-major order all the Go `for row …
for col` scans use. -/
def allPositions : List Position :=
  (List.range 64).map (fun i => ⟨(i / 8 : Nat), (i % 8 : Nat)⟩)

/-- Loop of Go `Board.isPathClear`: walk from the square after `f`
towards `(tRow, tCol)` by `(rowStep, colStep)` per iteration, failing on
the first occupied square strictly before the target.  The Go loop is
unbounded; every call the program makes is on two aligned on-board
squares, where it performs at most 7 iterations, so the fuel of 16 set by
`Board.isPathClear` is never exhausted on a reachable call. -/
def Board.pathClearGo (b : Board) (tRow tCol rowStep colStep : Int) :
    Nat → Int → Int → Bool
  | 0, _, _ => true
  | fuel + 1, curRow, curCol =>
    if curRow = tRow ∧ curCol = tCol then true
    else if (b.GetPiece ⟨curRow, curCol⟩).isSome then false
    else b.pathClearGo tRow tCol rowStep colStep fuel (curRow + rowStep) (curCol + colStep)

/-- Go `Board.isPathClear`: the squares strictly between `f` and `t` are
all empty. -/
def Board.isPathClear (b : Board) (f t : Position) : Bool :=
  let rowStep : Int := if t.Row > f.Row then 1 else if t.Row < f.Row then -1 else 0
  let colStep : Int := if t.Col > f.Col then 1 else if t.Col < f.Col then -1 else 0
  b.pathClearGo t.Row t.Col rowStep colStep 16 (f.Row + rowStep) (f.Col + colStep)

/-- The `direction` local of `isValidPawnMove`: `-1` for White (up,
decreasing rows), `1` for Black. -/
def pawnDirection (c : Color) : Int :=
  if c = .Black then 1 else -1

/-- The `startRow` local of `isValidPawnMove`: row 6 for White pawns,
row 1 for Black pawns. -/
def pawnStartRow (c : Color) : Int :=
  if c = .Black then 1 else 6

/-- Go `Board.isValidPawnMove`.  `math.Abs(float64(colDiff)) == 1` is the
exact integer condition `colDiff.natAbs = 1`; the `direction`/`startRow`
locals are the named helpers above. -/
def Board.isValidPawnMove (b : Board) (move : Move) (piece : Piece) : Bool :=
  let rowDiff := move.To.Row - move.From.Row
  let colDiff := move.To.Col - move.From.Col
  let direction : Int := pawnDirection piece.color
  let startRow : Int := pawnStartRow piece.color
  if colDiff = 0 ∧ rowDiff = direction then
    (b.GetPiece move.To).isNone
  else if colDiff = 0 ∧ rowDiff = 2 * direction ∧ move.From.Row = startRow then
    (b.GetPiece move.To).isNone &&
      (b.GetPiece (NewPosition (move.From.Row + direction) move.From.Col)).isNone
  else if colDiff.natAbs = 1 ∧ rowDiff = direction then
    match b.GetPiece move.To with
    | some destPiece => destPiece.color ≠ piece.color
    | none => false
  else false

/-- Go `Board.isValidRookMove`. -/
def Board.isValidRookMove (b : Board) (move : Move) : Bool :=
  if move.From.Row ≠ move.To.Row ∧ move.From.Col ≠ move.To.Col then false
  else b.isPathClear move.From move.To

/-- Go `Board.isValidKnightMove`. -/
def Board.isValidKnightMove (_b : Board) (move : Move) : Bool :=
  let rowDiff := (move.To.Row - move.From.Row).natAbs
  let colDiff := (move.To.Col - move.From.Col).natAbs
  (rowDiff = 2 ∧ colDiff = 1) ∨ (rowDiff = 1 ∧ colDiff = 2)

/-- Go `Board.isValidBishopMove`. -/
def Board.isValidBishopMove (b : Board) (move : Move) : Bool :=
  let rowDiff := (move.To.Row - move.From.Row).natAbs
  let colDiff := (move.To.Col - move.From.Col).natAbs
  if rowDiff ≠ colDiff then false
  else b.isPathClear move.From move.To

/-- Go `Board.isValidQueenMove`. -/
def Board.isValidQueenMove (b : Board) (move : Move) : Bool :=
  b.isValidRookMove move || b.isValidBishopMove move

/-- Go `Board.isValidKingMove`. -/
def Board.isValidKingMove (_b : Board) (move : Move) : Bool :=
  let rowDiff := (move.To.Row - move.From.Row).natAbs
  let colDiff := (move.To.Col - move.From.Col).natAbs
  rowDiff ≤ 1 ∧ colDiff ≤ 1

/-- Go `Board.IsValidMove`: own piece at `From`, no own piece at `To`,
and the piece-specific rule holds. -/
def Board.IsValidMove (b : Board) (move : Move) (currentPlayer : Color) : Bool :=
  match b.GetPiece move.From with
  | none => false
  | some piece =>
    if piece.color ≠ currentPlayer then false
    else if (match b.GetPiece move.To with
             | some destPiece => destPiece.color == piece.color
             | none => false : Bool) then false
    else
      match piece.type with
      | .Pawn => b.isValidPawnMove move piece
      | .Rook => b.isValidRookMove move
      | .Knight => b.isValidKnightMove move
      | .Bishop => b.isValidBishopMove move
      | .Queen => b.isValidQueenMove move
      | .King => b.isValidKingMove move

/-- Go `Board.GetValidMoves`: all destination squares (row-major) for
which `IsValidMove` holds for the piece's own color. -/
def Board.GetValidMoves (b : Board) (pos : Position) : List Move :=
  match b.GetPiece pos with
  | none => []
  | some piece =>
    (allPositions.filter (fun t => b.IsValidMove (NewMove pos t) piece.color)).map
      (fun t => NewMove pos t)

/-- The all-empty board `Board{}` before `setupInitialPosition` runs. -/
def Board.empty : Board :=
  ⟨fun _ => none⟩

/-- Go `Board.setupInitialPosition`, as the same sequence of square
assignments. -/
def Board.setupInitialPosition (_b : Board) : Board :=
  let b : Board := ⟨fun _ => none⟩
  let b := b.SetPiece ⟨7, 0⟩ (some (NewPiece .Rook .White))
  let b := b.SetPiece ⟨7, 1⟩ (some (NewPiece .Knight .White))
  let b := b.SetPiece ⟨7, 2⟩ (some (NewPiece .Bishop .White))
  let b := b.SetPiece ⟨7, 3⟩ (some (NewPiece .Queen .White))
  let b := b.SetPiece ⟨7, 4⟩ (some (NewPiece .King .White))
  let b := b.SetPiece ⟨7, 5⟩ (some (NewPiece .Bishop .White))
  let b := b.SetPiece ⟨7, 6⟩ (some (NewPiece .Knight .White))
  let b := b.SetPiece ⟨7, 7⟩ (some (NewPiece .Rook .White))
  let b := (List.range 8).foldl (fun b i => b.SetPiece ⟨6, (i : Int)⟩ (some (NewPiece .Pawn .White))) b
  let b := b.SetPiece ⟨0, 0⟩ (some (NewPiece .Rook .Black))
  let b := b.SetPiece ⟨0, 1⟩ (some (NewPiece .Knight .Black))
  let b := b.SetPiece ⟨0, 2⟩ (some (NewPiece .Bishop .Black))
  let b := b.SetPiece ⟨0, 3⟩ (some (NewPiece .Queen .Black))
  let b := b.SetPiece ⟨0, 4⟩ (some (NewPiece .King .Black))
  let b := b.SetPiece ⟨0, 5⟩ (some (NewPiece .Bishop .Black))
  let b := b.SetPiece ⟨0, 6⟩ (some (NewPiece .Knight .Black))
  let b := b.SetPiece ⟨0, 7⟩ (some (NewPiece .Rook .Black))
  (List.range 8).foldl (fun b i => b.SetPiece ⟨1, (i : Int)⟩ (some (NewPiece .Pawn .Black))) b

/-- Go `NewBoard`: an empty board populated by `setupInitialPosition`. -/
def NewBoard : Board :=
  Board.empty.setupInitialPosition

/-- Go `GameState` enumeration. -/
inductive GameState where
  | Playing
  | Check
  | Checkmate
  | Stalemate
  | Draw
deriving DecidableEq, Repr

/-- Go `Game`: one board, the side to move, the state label and the move
history. -/
structure Game where
  Board : Board
  CurrentPlayer : Color
  State : GameState
  MoveHistory : List Move

/-- Go `NewGame`. -/
def NewGame : Game :=
  { Board := NewBoard, CurrentPlayer := .White, State := .Playing, MoveHistory := [] }

/-- Go `Game.isInCheck`, which reads only `g.Board`: locate the player's
king (first hit of the row-major scan; no king means "not in check"),
then ask whether any opposing piece has a pseudo-legal move onto the
king's square. -/
def Board.isInCheckB (b : Board) (player : Color) : Bool :=
  match allPositions.find? (fun pos =>
      match b.GetPiece pos with
      | some piece => piece.type == .King && piece.color == player
      | none => false) with
  | none => false
  | some kingPos =>
    let opponent : Color := if player = .Black then .White else .Black
    allPositions.any (fun pos =>
      match b.GetPiece pos with
      | some piece => piece.color == opponent && b.IsValidMove (NewMove pos kingPos) opponent
      | none => false)

/-- Go `Game.isInCheck` (delegating to the board scan). -/
def Game.isInCheck (g : Game) (player : Color) : Bool :=
  g.Board.isInCheckB player

/-- Body of the inner loop of Go `Game.hasValidMoves`: save the captured
piece, apply the move with `MovePiece`, test `isInCheck`, undo with
`MovePiece` and restore the captured piece.  Returns the board after the
try together with "this move does not leave the king in check". -/
def Board.tryMove (b : Board) (player : Color) (m : Move) : Board × Bool :=
  let originalPiece := b.GetPiece m.To
  let b1 := (b.MovePiece m.From m.To).1
  let inCheck := b1.isInCheckB player
  let b2 := (b1.MovePiece m.To m.From).1
  let b3 := b2.SetPiece m.To originalPiece
  (b3, !inCheck)

/-- Inner `for _, move := range moves` loop of Go `Game.hasValidMoves`,
returning `true` at the first tried move that escapes check. -/
def Board.tryMovesLoop (player : Color) : Board → List Move → Board × Bool
  | b, [] => (b, false)
  | b, m :: rest =>
    let r := b.tryMove player m
    if r.2 then (r.1, true) else Board.tryMovesLoop player r.1 rest

/-- Outer row/col scan of Go `Game.hasValidMoves`. -/
def Board.hasValidMovesAux (player : Color) : Board → List Position → Board × Bool
  | b, [] => (b, false)
  | b, pos :: rest =>
    match b.GetPiece pos with
    | some piece =>
      if piece.color = player then
        let r := Board.tryMovesLoop player b (b.GetValidMoves pos)
        if r.2 then (r.1, true) else Board.hasValidMovesAux player r.1 rest
      else Board.hasValidMovesAux player b rest
    | none => Board.hasValidMovesAux player b rest

/-- Go `Game.hasValidMoves`.  The Go method mutates the live board (it
sets `HasMoved` flags of tried pieces), so the embedding returns the
board after the call alongside the boolean answer. -/
def Game.hasValidMoves (g : Game) (player : Color) : Chess.Board × Bool :=
  Board.hasValidMovesAux player g.Board allPositions

/-- Go `Game.updateGameState`: classify the position of the (new)
current player.  The board component carries the `HasMoved`-flag side
effects of the `hasValidMoves` call. -/
def Game.updateGameState (g : Game) : Game :=
  if g.isInCheck g.CurrentPlayer then
    let r := g.hasValidMoves g.CurrentPlayer
    if r.2 then { g with Board := r.1, State := .Check }
    else { g with Board := r.1, State := .Checkmate }
  else
    let r := g.hasValidMoves g.CurrentPlayer
    if !r.2 then { g with Board := r.1, State := .Stalemate }
    else { g with Board := r.1, State := .Playing }

/-- The three distinct errors `Game.MakeMove` can surface: a parse
failure on either endpoint, or an `IsValidMove` rejection. -/
inductive MoveError where
  | invalidFrom (e : ParseError)
  | invalidTo (e : ParseError)
  | invalidMove
deriving DecidableEq, Repr

/-- Go `Game.MakeMove`: parse both endpoints, validate, then relocate
the piece, append to the history, flip the side to move and recompute
the state.  The pair carries the error (if any) and the game after the
call. -/
def Game.MakeMove (g : Game) (f t : GoStr) : Except MoveError Unit × Game :=
  match FromAlgebraic f with
  | .error e => (.error (.invalidFrom e), g)
  | .ok fromPos =>
    match FromAlgebraic t with
    | .error e => (.error (.invalidTo e), g)
    | .ok toPos =>
      let move := NewMove fromPos toPos
      if ¬ (g.Board.IsValidMove move g.CurrentPlayer = true) then (.error .invalidMove, g)
      else
        let board1 := (g.Board.MovePiece move.From move.To).1
        let hist := g.MoveHistory ++ [move]
        let player : Color := if g.CurrentPlayer = .White then .Black else .White
        let g1 : Game :=
          { Board := board1, CurrentPlayer := player, State := g.State, MoveHistory := hist }
        (.ok (), g1.updateGameState)

/-- Go `float64` search scores.  Every score on the claim-relevant paths
is an exact small decimal or an infinity from `math.Inf(±1)`, so the
exact rationals-with-infinities model preserves all the comparisons the
search performs. -/
inductive Score where
  | ninf
  | val (q : ℚ)
  | pinf
deriving DecidableEq, Repr

/-- `x <= y` on scores, as Go float comparison behaves on these values
(no NaN ever arises). -/
def Score.le : Score → Score → Bool
  | .ninf, _ => true
  | _, .pinf => true
  | .val a, .val b => decide (a ≤ b)
  | .pinf, _ => false
  | .val _, .ninf => false

/-- `x < y` on scores. -/
def Score.lt (a b : Score) : Bool :=
  !(Score.le b a)

/-- Go `math.Max` on these scores. -/
def Score.max (a b : Score) : Score :=
  if Score.le a b then b else a

/-- Go `math.Min` on these scores. -/
def Score.min (a b : Score) : Score :=
  if Score.le a b then a else b

/-- Go `TranspositionEntry` (`flag`: 0 exact, 1 lower bound, 2 upper bound). -/
structure TranspositionEntry where
  depth : Int
  score : Score
  flag : Int
deriving DecidableEq, Repr

/-- Go `AI`: the engine with its mutable search tables.  The Go map and
arrays are modelled as functions updated pointwise. -/
structure AI where
  color : Color
  depth : Int
  transpositionTable : Nat → Option TranspositionEntry
  killerMoves : Nat → Nat → Move
  historyTable : Move → Option Int

/-- Go `NewAI`: empty transposition and history tables; `killerMoves`
starts as the zero-valued array (all `Move{}`). -/
def NewAI (color : Color) (depth : Int) : AI :=
  { color := color, depth := depth, transpositionTable := fun _ => none,
    killerMoves := fun _ _ => NewMove ⟨0, 0⟩ ⟨0, 0⟩, historyTable := fun _ => none }

/-- The numeric value of a Go `PieceType` constant. -/
def PieceType.goVal : PieceType → Nat
  | .King => 0
  | .Queen => 1
  | .Rook => 2
  | .Bishop => 3
  | .Knight => 4
  | .Pawn => 5

/-- The numeric value of a Go `Color` constant. -/
def Color.goVal : Color → Nat
  | .White => 0
  | .Black => 1

/-- Go `AI.hashPosition`.  All intermediate values are far below `2^64`,
so the `uint64` arithmetic never wraps and plain `Nat` is exact. -/
def AI.hashPosition (_ai : AI) (game : Game) : Nat :=
  let h := allPositions.foldl (fun hash pos =>
    match game.Board.GetPiece pos with
    | some piece =>
      let pieceValue := piece.type.goVal + piece.color.goVal * 10
      Nat.xor hash (pieceValue * (pos.Row * 8 + pos.Col + 1).toNat)
    | none => hash) 0
  Nat.xor h (game.CurrentPlayer.goVal * 1000000)

/-- Go `AI.isCapture`. -/
def AI.isCapture (_ai : AI) (move : Move) (game : Game) : Bool :=
  (game.Board.GetPiece move.To).isSome

/-- Go `AI.isCenterMove`: the central 4×4 region. -/
def AI.isCenterMove (_ai : AI) (pos : Position) : Bool :=
  decide ((2 ≤ pos.Row ∧ pos.Row ≤ 5) ∧ (2 ≤ pos.Col ∧ pos.Col ≤ 5))

/-- Go `AI.getPieceValue`. -/
def AI.getPieceValue (_ai : AI) : PieceType → Int
  | .Pawn => 1
  | .Knight => 3
  | .Bishop => 3
  | .Rook => 5
  | .Queen => 9
  | .King => 0

/-- Go `AI.isInCheck` (delegates to the game). -/
def AI.isInCheck (_ai : AI) (game : Game) (color : Color) : Bool :=
  game.isInCheck color

/-- Go `AI.getAllPossibleMovesForColor`. -/
def AI.getAllPossibleMovesForColor (_ai : AI) (game : Game) (color : Color) : List Move :=
  allPositions.flatMap (fun f =>
    match game.Board.GetPiece f with
    | some piece => if piece.color = color then game.Board.GetValidMoves f else []
    | none => [])

/-- Go `AI.getAllPossibleMoves`. -/
def AI.getAllPossibleMoves (ai : AI) (game : Game) : List Move :=
  ai.getAllPossibleMovesForColor game game.CurrentPlayer

/-- Go `AI.copyGame`.  Note the source starts the copy from `NewBoard()`
(the populated initial position) and then only overwrites the squares
occupied in the source game, exactly as embedded here. -/
def AI.copyGame (_ai : AI) (game : Game) : Game :=
  let newBoard := allPositions.foldl (fun nb pos =>
    match game.Board.GetPiece pos with
    | some piece => nb.SetPiece pos (some ⟨piece.type, piece.color, false⟩)
    | none => nb) NewBoard
  { Board := newBoard, CurrentPlayer := game.CurrentPlayer, State := game.State,
    MoveHistory := game.MoveHistory }

/-- Go `AI.findKing`. -/
def AI.findKing (_ai : AI) (game : Game) (color : Color) : Option Position :=
  allPositions.find? (fun pos =>
    match game.Board.GetPiece pos with
    | some piece => piece.type == .King && piece.color == color
    | none => false)

/-- Go `AI.getOpponentColor`. -/
def AI.getOpponentColor (ai : AI) : Color :=
  if ai.color = .White then .Black else .White

/-- The `pawnTable` literal of `AI.evaluatePosition`. -/
def pawnTable : List (List ℚ) :=
  [[0.0, 0.0, 0.0, 0.0, 0.0, 0.0, 0.0, 0.0],
   [0.8, 0.8, 0.8, 0.8, 0.8, 0.8, 0.8, 0.8],
   [0.3, 0.3, 0.4, 0.5, 0.5, 0.4, 0.3, 0.3],
   [0.1, 0.1, 0.2, 0.4, 0.4, 0.2, 0.1, 0.1],
   [0.05, 0.05, 0.1, 0.3, 0.3, 0.1, 0.05, 0.05],
   [0.05, -0.05, -0.1, 0.0, 0.0, -0.1, -0.05, 0.05],
   [0.05, 0.1, 0.1, -0.2, -0.2, 0.1, 0.1, 0.05],
   [0.0, 0.0, 0.0, 0.0, 0.0, 0.0, 0.0, 0.0]]

/-- The `knightTable` literal of `AI.evaluatePosition`. -/
def knightTable : List (List ℚ) :=
  [[-0.5, -0.4, -0.3, -0.3, -0.3, -0.3, -0.4, -0.5],
   [-0.4, -0.2, 0.0, 0.0, 0.0, 0.0, -0.2, -0.4],
   [-0.3, 0.0, 0.1, 0.15, 0.15, 0.1, 0.0, -0.3],
   [-0.3, 0.05, 0.15, 0.2, 0.2, 0.15, 0.05, -0.3],
   [-0.3, 0.0, 0.15, 0.2, 0.2, 0.15, 0.0, -0.3],
   [-0.3, 0.05, 0.1, 0.15, 0.15, 0.1, 0.05, -0.3],
   [-0.4, -0.2, 0.0, 0.05, 0.05, 0.0, -0.2, -0.4],
   [-0.5, -0.4, -0.3, -0.3, -0.3, -0.3, -0.4, -0.5]]

/-- The `bishopTable` literal of `AI.evaluatePosition`. -/
def bishopTable : List (List ℚ) :=
  [[-0.2, -0.1, -0.1, -0.1, -0.1, -0.1, -0.1, -0.2],
   [-0.1, 0.0, 0.0, 0.0, 0.0, 0.0, 0.0, -0.1],
   [-0.1, 0.0, 0.05, 0.1, 0.1, 0.05, 0.0, -0.1],
   [-0.1, 0.05, 0.05, 0.1, 0.1, 0.05, 0.05, -0.1],
   [-0.1, 0.0, 0.1, 0.1, 0.1, 0.1, 0.0, -0.1],
   [-0.1, 0.1, 0.1, 0.1, 0.1, 0.1, 0.1, -0.1],
   [-0.1, 0.05, 0.0, 0.0, 0.0, 0.0, 0.05, -0.1],
   [-0.2, -0.1, -0.1, -0.1, -0.1, -0.1, -0.1, -0.2]]

/-- The `rookTable` literal of `AI.evaluatePosition`. -/
def rookTable : List (List ℚ) :=
  [[0.0, 0.0, 0.0, 0.0, 0.0, 0.0, 0.0, 0.0],
   [0.05, 0.1, 0.1, 0.1, 0.1, 0.1, 0.1, 0.05],
   [-0.05, 0.0, 0.0, 0.0, 0.0, 0.0, 0.0, -0.05],
   [-0.05, 0.0, 0.0, 0.0, 0.0, 0.0, 0.0, -0.05],
   [-0.05, 0.0, 0.0, 0.0, 0.0, 0.0, 0.0, -0.05],
   [-0.05, 0.0, 0.0, 0.0, 0.0, 0.0, 0.0, -0.05],
   [-0.05, 0.0, 0.0, 0.0, 0.0, 0.0, 0.0, -0.05],
   [0.0, 0.0, 0.0, 0.05, 0.05, 0.0, 0.0, 0.0]]

/-- Index an 8×8 table literal. -/
def tableAt (tbl : List (List ℚ)) (r c : Nat) : ℚ :=
  (tbl.getD r []).getD c 0

/-- Go `AI.evaluatePosition`, over exact rationals. -/
def AI.evaluatePosition (ai : AI) (game : Game) : ℚ :=
  if game.State = .Checkmate then
    if game.CurrentPlayer = ai.color then -1000 else 1000
  else if game.State = .Stalemate then 0
  else
    let pieceValues : PieceType → ℚ := fun t =>
      match t with
      | .Pawn => 1.0
      | .Knight => 3.2
      | .Bishop => 3.3
      | .Rook => 5.0
      | .Queen => 9.0
      | .King => 0.0
    let score : ℚ := allPositions.foldl (fun score pos =>
      match game.Board.GetPiece pos with
      | none => score
      | some piece =>
        let value := pieceValues piece.type
        let value := value + (match piece.type with
          | .Pawn =>
            if piece.color = .White then tableAt pawnTable (7 - pos.Row).toNat pos.Col.toNat
            else tableAt pawnTable pos.Row.toNat pos.Col.toNat
          | .Knight => tableAt knightTable pos.Row.toNat pos.Col.toNat
          | .Bishop => tableAt bishopTable pos.Row.toNat pos.Col.toNat
          | .Rook => tableAt rookTable pos.Row.toNat pos.Col.toNat
          | _ => 0)
        let value := if (piece.type = .Knight ∨ piece.type = .Bishop) ∧
            ((piece.color = .White ∧ pos.Row ≠ 0) ∨ (piece.color = .Black ∧ pos.Row ≠ 7))
          then value + 0.15 else value
        if piece.color = ai.color then score + value else score - value) 0
    let centerSquares : List Position :=
      [NewPosition 3 3, NewPosition 3 4, NewPosition 4 3, NewPosition 4 4]
    let extendedCenter : List Position :=
      [NewPosition 2 2, NewPosition 2 3, NewPosition 2 4, NewPosition 2 5,
       NewPosition 3 2, NewPosition 3 5,
       NewPosition 4 2, NewPosition 4 5,
       NewPosition 5 2, NewPosition 5 3, NewPosition 5 4, NewPosition 5 5]
    let score := centerSquares.foldl (fun score pos =>
      match game.Board.GetPiece pos with
      | some piece => if piece.color = ai.color then score + 0.3 else score - 0.3
      | none => score) score
    let score := extendedCenter.foldl (fun score pos =>
      match game.Board.GetPiece pos with
      | some piece => if piece.color = ai.color then score + 0.1 else score - 0.1
      | none => score) score
    let score := match ai.findKing game ai.color with
      | some aiKingPos =>
        let score := if (2 ≤ aiKingPos.Row ∧ aiKingPos.Row ≤ 5) ∧
            (2 ≤ aiKingPos.Col ∧ aiKingPos.Col ≤ 5) then score - 0.8 else score
        if ai.color = .White ∧ aiKingPos.Row ≤ 1 then score + 0.2
        else if ai.color = .Black ∧ aiKingPos.Row ≥ 6 then score + 0.2
        else score
      | none => score
    let aiMoves : Int := (ai.getAllPossibleMovesForColor game ai.color).length
    let opponentMoves : Int := (ai.getAllPossibleMovesForColor game ai.getOpponentColor).length
    score + ((aiMoves - opponentMoves : Int) : ℚ) * 0.05

/-- The per-candidate score of Go `AI.orderMoves`, summing the capture
(MVV-LVA), killer, history, center and development terms in source
order.  `historyScore / 100` is Go integer division (truncation toward
zero, hence `Int.div`). -/
def AI.moveOrderScore (ai : AI) (game : Game) (ply : Nat) (move : Move) : Int :=
  let score : Int := 0
  let score := if ai.isCapture move game then
      match game.Board.GetPiece move.From, game.Board.GetPiece move.To with
      | some attacker, some victim =>
        score + ai.getPieceValue victim.type * 10 - ai.getPieceValue attacker.type
      | _, _ => score
    else score
  let score := if ply < 10 then
      if move = ai.killerMoves ply 0 then score + 900
      else if move = ai.killerMoves ply 1 then score + 800
      else score
    else score
  let score := match ai.historyTable move with
    | some historyScore => score + Int.tdiv historyScore 100
    | none => score
  let score := if ai.isCenterMove move.To then score + 50 else score
  match game.Board.GetPiece move.From with
  | some piece =>
    if (piece.type = .Knight ∨ piece.type = .Bishop) ∧
        ((piece.color = .White ∧ move.From.Row = 0) ∨ (piece.color = .Black ∧ move.From.Row = 7))
    then score + 30 else score
  | none => score

/-- Insertion step of the descending, stable sort that stands in for the
Go `sort.Slice` call of `orderMoves` (whose tie order is unspecified;
the spec asks for encounter order on ties, which a stable sort gives). -/
def insertByScore (x : Move × Int) : List (Move × Int) → List (Move × Int)
  | [] => [x]
  | y :: ys => if x.2 > y.2 then x :: y :: ys else y :: insertByScore x ys

/-- Stable descending sort by score. -/
def sortByScoreDesc (l : List (Move × Int)) : List (Move × Int) :=
  l.foldr insertByScore []

/-- Go `AI.orderMoves`. -/
def AI.orderMoves (ai : AI) (moves : List Move) (game : Game) (ply : Nat) : List Move :=
  (sortByScoreDesc (moves.map (fun m => (m, ai.moveOrderScore game ply m)))).map Prod.fst

/-- Write-through of `ai.transpositionTable[hash] = entry`. -/
def storeTT (ai : AI) (hash : Nat) (entry : TranspositionEntry) : AI :=
  { ai with transpositionTable := fun h =>
      if h = hash then some entry else ai.transpositionTable h }

/-- The transposition-table probe at the top of Go `AI.minimax`:
`error s` means the probe returns `s` immediately (exact hit, or a
cached-bound cutoff `alpha >= beta`); `ok (alpha, beta)` means the
search continues with the tightened window. -/
def AI.ttProbe (ai : AI) (hash : Nat) (depth : Int) (alpha beta : Score) :
    Except Score (Score × Score) :=
  match ai.transpositionTable hash with
  | some entry =>
    if entry.depth ≥ depth then
      if entry.flag = 0 then .error entry.score
      else
        let alpha := if entry.flag = 1 then Score.max alpha entry.score else alpha
        let beta := if entry.flag = 2 then Score.min beta entry.score else beta
        if Score.le beta alpha then .error entry.score else .ok (alpha, beta)
    else .ok (alpha, beta)
  | none => .ok (alpha, beta)

/-- The killer-move and history-table updates Go `AI.minimax` performs
at a beta cutoff. -/
def AI.recordCutoff (ai : AI) (move : Move) (game : Game) (depth : Int) (ply : Nat) : AI :=
  let ai := if ply < 10 ∧ ¬ (ai.isCapture move game = true) then
      { ai with killerMoves := fun i j =>
          if i = ply ∧ j = 1 then ai.killerMoves ply 0
          else if i = ply ∧ j = 0 then move
          else ai.killerMoves i j }
    else ai
  { ai with historyTable := fun m =>
      if m = move then some ((ai.historyTable m).getD 0 + depth * depth)
      else ai.historyTable m }

/-- State of the move loop inside Go `AI.minimax`: the engine tables,
the (α, β) window, the running best score and the break flag. -/
structure LoopSt where
  ai : AI
  alpha : Score
  beta : Score
  best : Score
  broken : Bool

/-- Go `AI.minimax`, by structural recursion on the remaining depth (the
Go `depth` argument is never negative: the entry calls pass
`currentDepth - 1 ≥ 0` and recursion stops at `depth == 0`).  The `for …
break` move loop is a fold carrying `LoopSt`. -/
def AI.minimaxAux : Nat → AI → Game → Bool → Score → Score → Nat → Score × AI
  | 0, ai, game, _isMaximizing, alpha, beta, _ply =>
    let hash := ai.hashPosition game
    match ai.ttProbe hash 0 alpha beta with
    | .error s => (s, ai)
    | .ok _ =>
      let score := Score.val (ai.evaluatePosition game)
      (score, storeTT ai hash ⟨0, score, 0⟩)
  | d + 1, ai, game, isMaximizing, alpha, beta, ply =>
    let depth : Int := (d : Int) + 1
    let hash := ai.hashPosition game
    match ai.ttProbe hash depth alpha beta with
    | .error s => (s, ai)
    | .ok (alpha, beta) =>
      if game.State ≠ .Playing then
        let score := Score.val (ai.evaluatePosition game)
        (score, storeTT ai hash ⟨depth, score, 0⟩)
      else
        let moves := ai.getAllPossibleMoves game
        if moves.isEmpty then
          if ai.isInCheck game game.CurrentPlayer then
            if isMaximizing then (Score.val (-1000 + (ply : ℚ)), ai)
            else (Score.val (1000 - (ply : ℚ)), ai)
          else (Score.val 0, ai)
        else
          let orderedMoves := ai.orderMoves moves game ply
          let originalAlpha := alpha
          let st0 : LoopSt :=
            ⟨ai, alpha, beta, if isMaximizing then Score.ninf else Score.pinf, false⟩
          let st := orderedMoves.foldl (fun st mv =>
            if st.broken then st
            else
              let gameCopy := st.ai.copyGame game
              match gameCopy.MakeMove mv.From.String mv.To.String with
              | (.error _, _) => st
              | (.ok _, g') =>
                let r := AI.minimaxAux d st.ai g' (!isMaximizing) st.alpha st.beta (ply + 1)
                if isMaximizing then
                  let best := if Score.lt st.best r.1 then r.1 else st.best
                  let alpha := Score.max st.alpha r.1
                  if Score.le st.beta alpha then
                    ⟨(r.2).recordCutoff mv game depth ply, alpha, st.beta, best, true⟩
                  else ⟨r.2, alpha, st.beta, best, false⟩
                else
                  let best := if Score.lt r.1 st.best then r.1 else st.best
                  let beta := Score.min st.beta r.1
                  if Score.le beta st.alpha then
                    ⟨(r.2).recordCutoff mv game depth ply, st.alpha, beta, best, true⟩
                  else ⟨r.2, st.alpha, beta, best, false⟩) st0
          let flag : Int := if Score.le st.best originalAlpha then 2
            else if Score.le st.beta st.best then 1
            else 0
          (st.best, storeTT st.ai hash ⟨depth, st.best, flag⟩)

/-- Go `AI.minimax` at its declared signature (depth as the Go `int`,
non-negative on every reachable call). -/
def AI.minimax (ai : AI) (game : Game) (depth : Nat) (isMaximizing : Bool)
    (alpha beta : Score) (ply : Nat) : Score × AI :=
  AI.minimaxAux depth ai game isMaximizing alpha beta ply

/-- The result of Go `AI.GetBestMove`, together with the engine state
after the call and the caller's game after the call (the source never
writes through the `game` pointer, so the embedding threads it back
unchanged — the theorem `getBestMove_frame` checks exactly this). -/
structure GBMResult where
  fromPos : Position
  toPos : Position
  found : Bool
  ai : AI
  game : Game

/-- Go `AI.GetBestMove`: iterative deepening over depths `1 … ai.depth`,
killer table cleared once per call, transposition/history tables carried
across depths. -/
def AI.GetBestMove (ai : AI) (game : Game) : GBMResult :=
  if game.CurrentPlayer ≠ ai.color then ⟨⟨0, 0⟩, ⟨0, 0⟩, false, ai, game⟩
  else
    let allMoves := ai.getAllPossibleMoves game
    if allMoves.isEmpty then ⟨⟨0, 0⟩, ⟨0, 0⟩, false, ai, game⟩
    else
      let ai := { ai with killerMoves := fun _ _ => NewMove ⟨0, 0⟩ ⟨0, 0⟩ }
      let st0 : AI × Move × Score := (ai, NewMove ⟨0, 0⟩ ⟨0, 0⟩, Score.ninf)
      let st := ((List.range ai.depth.toNat).map (fun i => i + 1)).foldl
        (fun st currentDepth =>
          let inner := (st.1.orderMoves allMoves game 0).foldl
            (fun (ist : AI × Move × Score) mv =>
              let gameCopy := ist.1.copyGame game
              match gameCopy.MakeMove mv.From.String mv.To.String with
              | (.error _, _) => ist
              | (.ok _, g') =>
                let r := AI.minimaxAux (currentDepth - 1) ist.1 g' false Score.ninf Score.pinf 1
                if Score.lt ist.2.2 r.1 then (r.2, mv, r.1)
                else (r.2, ist.2.1, ist.2.2))
            (st.1, NewMove ⟨0, 0⟩ ⟨0, 0⟩, Score.ninf)
          if Score.lt st.2.2 inner.2.2 then (inner.1, inner.2.1, inner.2.2)
          else (inner.1, st.2.1, st.2.2)) st0
      ⟨st.2.1.From, st.2.1.To, true, st.1, game⟩

/-- Erase the `HasMoved` bookkeeping flag of a piece.  No movement,
check or state rule of the engine reads this flag; it is the one piece
component `hasValidMoves` does not restore. -/
def Piece.strip (p : Piece) : Piece :=
  { p with hasMoved := false }

/-- A board with every piece's `HasMoved` flag erased. -/
def Board.strip (b : Board) : Board :=
  ⟨fun i => (b.squares i).map Piece.strip⟩

/-- Test fixture: a game on an empty board, White to move, `Playing`. -/
def emptyGame : Game :=
  { Board := Board.empty, CurrentPlayer := .White, State := .Playing, MoveHistory := [] }

/-- Test fixture: a lone White king on e4 (row 4, col 4), White to move. -/
def kingOnlyGame : Game :=
  { Board := Board.empty.SetPiece ⟨4, 4⟩ (some (NewPiece .King .White)),
    CurrentPlayer := .White, State := .Playing, MoveHistory := [] }

/-- Test fixture: a lone White knight on b8 (row 0, col 1 — Black's back
rank), White to move. -/
def knightCornerGame : Game :=
  { Board := Board.empty.SetPiece ⟨0, 1⟩ (some (NewPiece .Knight .White)),
    CurrentPlayer := .White, State := .Playing, MoveHistory := [] }

/-- Test fixture: a freshly constructed engine for White, depth 2. -/
def freshAI : AI :=
  NewAI .White 2

end Chess

instance {ε α : Type} [DecidableEq ε] [DecidableEq α] : DecidableEq (Except ε α) := fun x y =>
  match x, y with
  | .error a, .error b =>
    if h : a = b then .isTrue (by rw [h]) else .isFalse (by simp [h])
  | .ok a, .ok b =>
    if h : a = b then .isTrue (by rw [h]) else .isFalse (by simp [h])
  | .error _, .ok _ => .isFalse (by simp)
  | .ok _, .error _ => .isFalse (by simp)

namespace Chess

theorem Board.ext_squares {b b' : Board} (h : ∀ i, b.squares i = b'.squares i) : b = b' := by
  cases b
  cases b'
  simp only [Board.mk.injEq]
  funext i
  exact h i

theorem Board.GetPiece_some_valid {b : Board} {pos : Position} {p : Piece}
    (h : b.GetPiece pos = some p) : pos.IsValid = true := by
  unfold Board.GetPiece at h
  by_cases hv : pos.IsValid = true
  · exact hv
  · rw [dif_neg hv] at h
    cases h

theorem Board.GetPiece_invalid (b : Board) {pos : Position} (h : ¬ (pos.IsValid = true)) :
    b.GetPiece pos = none := by
  unfold Board.GetPiece
  rw [dif_neg h]

theorem Board.SetPiece_invalid (b : Board) {pos : Position} (h : ¬ (pos.IsValid = true))
    (v : Option Piece) : b.SetPiece pos v = b := by
  unfold Board.SetPiece
  rw [dif_neg h]

theorem Board.squares_eq_getPiece (b : Board) (i : Fin 64) :
    b.squares i = b.GetPiece ⟨((i : Nat) / 8 : Nat), ((i : Nat) % 8 : Nat)⟩ := by
  have hi := i.isLt
  have hv : (⟨((i : Nat) / 8 : Nat), ((i : Nat) % 8 : Nat)⟩ : Position).IsValid = true := by
    rw [Position.isValid_iff]
    simp only
    refine ⟨by omega, by omega, by omega, by omega⟩
  rw [Board.GetPiece, dif_pos hv]
  congr 1
  apply Fin.ext
  simp only [Position.idx]
  omega

theorem Board.GetPiece_SetPiece_same (b : Board) {pos : Position} (h : pos.IsValid = true)
    (v : Option Piece) : (b.SetPiece pos v).GetPiece pos = v := by
  unfold Board.SetPiece Board.GetPiece
  rw [dif_pos h, dif_pos h]
  simp [Function.update_same]

theorem Board.GetPiece_SetPiece_ne (b : Board) {pos q : Position} (hne : q ≠ pos)
    (v : Option Piece) : (b.SetPiece pos v).GetPiece q = b.GetPiece q := by
  unfold Board.SetPiece Board.GetPiece
  by_cases hp : pos.IsValid = true
  · rw [dif_pos hp]
    by_cases hq : q.IsValid = true
    · rw [dif_pos hq]
      simp only
      rw [dif_pos hq]
      apply Function.update_noteq
      intro hF
      exact hne (Position.idx_inj hq hp (congrArg Fin.val hF))
    · rw [dif_neg hq, dif_neg hq]
  · rw [dif_neg hp]

theorem Board.GetPiece_strip (b : Board) (pos : Position) :
    (b.strip).GetPiece pos = (b.GetPiece pos).map Piece.strip := by
  unfold Board.GetPiece Board.strip
  by_cases hv : pos.IsValid = true
  · rw [dif_pos hv, dif_pos hv]
  · rw [dif_neg hv, dif_neg hv]
    rfl

theorem Board.pathClearGo_strip (b : Board) (tR tC rS cS : Int) :
    ∀ (fuel : Nat) (r c : Int),
      (b.strip).pathClearGo tR tC rS cS fuel r c = b.pathClearGo tR tC rS cS fuel r c := by
  intro fuel
  induction fuel with
  | zero => intro r c; rfl
  | succ n ih =>
    intro r c
    simp only [Board.pathClearGo, Board.GetPiece_strip]
    cases b.GetPiece ⟨r, c⟩ <;> simp [ih]

theorem Board.isPathClear_strip (b : Board) (f t : Position) :
    (b.strip).isPathClear f t = b.isPathClear f t := by
  unfold Board.isPathClear
  exact Board.pathClearGo_strip b t.Row t.Col _ _ 16 _ _

theorem Board.isValidPawnMove_strip (b : Board) (m : Move) (p : Piece) :
    (b.strip).isValidPawnMove m p.strip = b.isValidPawnMove m p := by
  unfold Board.isValidPawnMove
  have hcol : p.strip.color = p.color := rfl
  simp only [hcol, Board.GetPiece_strip]
  cases b.GetPiece m.To <;> cases b.GetPiece (NewPosition (m.From.Row + _) m.From.Col) <;>
    simp [Piece.strip]

theorem Board.isValidRookMove_strip (b : Board) (m : Move) :
    (b.strip).isValidRookMove m = b.isValidRookMove m := by
  unfold Board.isValidRookMove
  rw [Board.isPathClear_strip]

theorem Board.isValidBishopMove_strip (b : Board) (m : Move) :
    (b.strip).isValidBishopMove m = b.isValidBishopMove m := by
  unfold Board.isValidBishopMove
  rw [Board.isPathClear_strip]

theorem Board.isValidQueenMove_strip (b : Board) (m : Move) :
    (b.strip).isValidQueenMove m = b.isValidQueenMove m := by
  unfold Board.isValidQueenMove
  rw [Board.isValidRookMove_strip, Board.isValidBishopMove_strip]

theorem Board.IsValidMove_strip (b : Board) (m : Move) (c : Color) :
    (b.strip).IsValidMove m c = b.IsValidMove m c := by
  unfold Board.IsValidMove
  rw [Board.GetPiece_strip]
  cases hp : b.GetPiece m.From with
  | none => rfl
  | some p =>
    simp only [Option.map_some']
    have hcol : p.strip.color = p.color := rfl
    have htyp : p.strip.type = p.type := rfl
    rw [hcol, htyp, Board.GetPiece_strip]
    have hdest : (match (b.GetPiece m.To).map Piece.strip with
        | some destPiece => destPiece.color == p.color
        | none => false : Bool) = (match b.GetPiece m.To with
        | some destPiece => destPiece.color == p.color
        | none => false : Bool) := by
      cases b.GetPiece m.To <;> rfl
    rw [hdest]
    have hrule : (match p.type with
        | PieceType.Pawn => (b.strip).isValidPawnMove m p.strip
        | PieceType.Rook => (b.strip).isValidRookMove m
        | PieceType.Knight => (b.strip).isValidKnightMove m
        | PieceType.Bishop => (b.strip).isValidBishopMove m
        | PieceType.Queen => (b.strip).isValidQueenMove m
        | PieceType.King => (b.strip).isValidKingMove m) = (match p.type with
        | PieceType.Pawn => b.isValidPawnMove m p
        | PieceType.Rook => b.isValidRookMove m
        | PieceType.Knight => b.isValidKnightMove m
        | PieceType.Bishop => b.isValidBishopMove m
        | PieceType.Queen => b.isValidQueenMove m
        | PieceType.King => b.isValidKingMove m) := by
      cases p.type
      case King => rfl
      case Queen => exact Board.isValidQueenMove_strip b m
      case Rook => exact Board.isValidRookMove_strip b m
      case Bishop => exact Board.isValidBishopMove_strip b m
      case Knight => rfl
      case Pawn => exact Board.isValidPawnMove_strip b m p
    rw [hrule]

theorem Board.GetValidMoves_strip (b : Board) (pos : Position) :
    (b.strip).GetValidMoves pos = b.GetValidMoves pos := by
  unfold Board.GetValidMoves
  rw [Board.GetPiece_strip]
  cases hp : b.GetPiece pos with
  | none => rfl
  | some p =>
    simp only [Option.map_some']
    have hcol : p.strip.color = p.color := rfl
    simp only [hcol, Board.IsValidMove_strip]

theorem Board.isInCheckB_strip (b : Board) (player : Color) :
    (b.strip).isInCheckB player = b.isInCheckB player := by
  unfold Board.isInCheckB
  have hpred : (fun pos => (match (b.strip).GetPiece pos with
      | some piece => piece.type == PieceType.King && piece.color == player
      | none => false : Bool)) = (fun pos => (match b.GetPiece pos with
      | some piece => piece.type == PieceType.King && piece.color == player
      | none => false : Bool)) := by
    funext pos
    rw [Board.GetPiece_strip]
    cases b.GetPiece pos <;> rfl
  rw [hpred]
  cases hk : allPositions.find? (fun pos => (match b.GetPiece pos with
      | some piece => piece.type == PieceType.King && piece.color == player
      | none => false : Bool)) with
  | none => rfl
  | some kingPos =>
    simp only
    congr 1
    funext pos
    rw [Board.GetPiece_strip]
    cases hp : b.GetPiece pos with
    | none => rfl
    | some p =>
      simp only [Option.map_some']
      have hcol : p.strip.color = p.color := rfl
      rw [hcol, Board.IsValidMove_strip]

theorem Board.strip_eq_of_getPiece {b b' : Board}
    (h : ∀ pos, (b.GetPiece pos).map Piece.strip = (b'.GetPiece pos).map Piece.strip) :
    b.strip = b'.strip := by
  apply Board.ext_squares
  intro i
  show ((b.squares i).map Piece.strip) = ((b'.squares i).map Piece.strip)
  rw [Board.squares_eq_getPiece b i, Board.squares_eq_getPiece b' i]
  exact h _

theorem Board.getPiece_strip_eq {b b' : Board} (h : b.strip = b'.strip) (pos : Position) :
    (b.GetPiece pos).map Piece.strip = (b'.GetPiece pos).map Piece.strip := by
  rw [← Board.GetPiece_strip, ← Board.GetPiece_strip, h]

theorem Board.SetPiece_congr {b b' : Board} (hs : b.strip = b'.strip) (pos : Position)
    {v v' : Option Piece} (hv : v.map Piece.strip = v'.map Piece.strip) :
    (b.SetPiece pos v).strip = (b'.SetPiece pos v').strip := by
  apply Board.strip_eq_of_getPiece
  intro q
  by_cases hpv : pos.IsValid = true
  · by_cases hq : q = pos
    · subst hq
      rw [Board.GetPiece_SetPiece_same _ hpv, Board.GetPiece_SetPiece_same _ hpv]
      exact hv
    · rw [Board.GetPiece_SetPiece_ne _ hq, Board.GetPiece_SetPiece_ne _ hq]
      exact Board.getPiece_strip_eq hs q
  · rw [Board.SetPiece_invalid _ hpv, Board.SetPiece_invalid _ hpv]
    exact Board.getPiece_strip_eq hs q

theorem Board.MovePiece_congr {b b' : Board} (hs : b.strip = b'.strip) (f t : Position) :
    ((b.MovePiece f t).1).strip = ((b'.MovePiece f t).1).strip ∧
      (b.MovePiece f t).2 = (b'.MovePiece f t).2 := by
  unfold Board.MovePiece
  by_cases hcond : ¬ (f.IsValid = true) ∨ ¬ (t.IsValid = true)
  · rw [if_pos hcond, if_pos hcond]
    exact ⟨hs, rfl⟩
  · rw [if_neg hcond, if_neg hcond]
    have hmap := Board.getPiece_strip_eq hs f
    cases hf : b.GetPiece f with
    | none =>
      cases hf' : b'.GetPiece f with
      | none => exact ⟨hs, rfl⟩
      | some p' => rw [hf, hf'] at hmap; simp at hmap
    | some p =>
      cases hf' : b'.GetPiece f with
      | none => rw [hf, hf'] at hmap; simp at hmap
      | some p' =>
        rw [hf, hf'] at hmap
        dsimp only
        refine ⟨?_, rfl⟩
        have hmap2 : Piece.strip p = Piece.strip p' := by simpa using hmap
        have hv : (some (⟨p.type, p.color, true⟩ : Piece)).map Piece.strip
            = (some (⟨p'.type, p'.color, true⟩ : Piece)).map Piece.strip := by
          simp only [Option.map_some', Option.some.injEq]
          exact hmap2
        exact Board.SetPiece_congr (Board.SetPiece_congr hs t hv) f rfl

theorem Board.tryMove_congr {b b' : Board} (hs : b.strip = b'.strip) (player : Color) (m : Move) :
    ((b.tryMove player m).1).strip = ((b'.tryMove player m).1).strip ∧
      (b.tryMove player m).2 = (b'.tryMove player m).2 := by
  obtain ⟨h1s, _⟩ := Board.MovePiece_congr hs m.From m.To
  have hic : ((b.MovePiece m.From m.To).1).isInCheckB player
      = ((b'.MovePiece m.From m.To).1).isInCheckB player := by
    rw [← Board.isInCheckB_strip, h1s, Board.isInCheckB_strip]
  obtain ⟨h2s, _⟩ := Board.MovePiece_congr h1s m.To m.From
  have h3 := Board.SetPiece_congr h2s m.To (Board.getPiece_strip_eq hs m.To)
  exact ⟨h3, by simp only [Board.tryMove]; rw [hic]⟩

theorem Board.tryMovesLoop_congr (player : Color) :
    ∀ (ms : List Move) {b b' : Board}, b.strip = b'.strip →
      ((Board.tryMovesLoop player b ms).1).strip = ((Board.tryMovesLoop player b' ms).1).strip ∧
        (Board.tryMovesLoop player b ms).2 = (Board.tryMovesLoop player b' ms).2 := by
  intro ms
  induction ms with
  | nil => intro b b' hs; exact ⟨hs, rfl⟩
  | cons m rest ih =>
    intro b b' hs
    obtain ⟨hts, htb⟩ := Board.tryMove_congr hs player m
    simp only [Board.tryMovesLoop]
    rw [htb]
    split
    · exact ⟨hts, rfl⟩
    · exact ih hts

theorem Board.hasValidMovesAux_congr (player : Color) :
    ∀ (ps : List Position) {b b' : Board}, b.strip = b'.strip →
      ((Board.hasValidMovesAux player b ps).1).strip
          = ((Board.hasValidMovesAux player b' ps).1).strip ∧
        (Board.hasValidMovesAux player b ps).2 = (Board.hasValidMovesAux player b' ps).2 := by
  intro ps
  induction ps with
  | nil => intro b b' hs; exact ⟨hs, rfl⟩
  | cons pos rest ih =>
    intro b b' hs
    have hmap := Board.getPiece_strip_eq hs pos
    simp only [Board.hasValidMovesAux]
    cases hp : b.GetPiece pos with
    | none =>
      cases hp' : b'.GetPiece pos with
      | none => exact ih hs
      | some q => rw [hp, hp'] at hmap; simp at hmap
    | some p =>
      cases hp' : b'.GetPiece pos with
      | none => rw [hp, hp'] at hmap; simp at hmap
      | some p' =>
        rw [hp, hp'] at hmap
        simp only [Option.map_some', Option.some.injEq] at hmap
        have hcol : p.color = p'.color := by
          have h2 := congrArg Piece.color hmap
          exact h2
        dsimp only
        by_cases hpc : p.color = player
        · have hpc' : p'.color = player := by rw [← hcol]; exact hpc
          rw [if_pos hpc, if_pos hpc']
          have hmv : b.GetValidMoves pos = b'.GetValidMoves pos := by
            rw [← Board.GetValidMoves_strip, hs, Board.GetValidMoves_strip]
          rw [hmv]
          obtain ⟨hls, hlb⟩ := Board.tryMovesLoop_congr player (b'.GetValidMoves pos) hs
          rw [hlb]
          split
          · exact ⟨hls, rfl⟩
          · exact ih hls
        · have hpc' : ¬ (p'.color = player) := by rw [← hcol]; exact hpc
          rw [if_neg hpc, if_neg hpc']
          exact ih hs

theorem Board.IsValidMove_from_ne_to {b : Board} {m : Move} {c : Color}
    (h : b.IsValidMove m c = true) : m.From ≠ m.To := by
  intro heq
  unfold Board.IsValidMove at h
  cases hf : b.GetPiece m.From with
  | none => rw [hf] at h; cases h
  | some p =>
    have hto : b.GetPiece m.To = some p := heq ▸ hf
    rw [hf, hto] at h
    by_cases hc : p.color = c <;> simp [hc] at h

theorem Board.tryMove_restore {b : Board} {m : Move} {p : Piece}
    (hf : b.GetPiece m.From = some p) (hne : m.From ≠ m.To) (player : Color) :
    ((b.tryMove player m).1).strip = b.strip := by
  have hfv : m.From.IsValid = true := Board.GetPiece_some_valid hf
  by_cases ht : m.To.IsValid = true
  · have h1 : b.MovePiece m.From m.To
        = ((b.SetPiece m.To (some ⟨p.type, p.color, true⟩)).SetPiece m.From none, true) := by
      unfold Board.MovePiece
      rw [if_neg (by simp [hfv, ht]), hf]
    have hb1to : ((b.SetPiece m.To (some ⟨p.type, p.color, true⟩)).SetPiece m.From none).GetPiece
        m.To = some ⟨p.type, p.color, true⟩ := by
      rw [Board.GetPiece_SetPiece_ne _ (Ne.symm hne), Board.GetPiece_SetPiece_same _ ht]
    have h2 : ((b.SetPiece m.To (some ⟨p.type, p.color, true⟩)).SetPiece m.From none).MovePiece
          m.To m.From
        = ((((b.SetPiece m.To (some ⟨p.type, p.color, true⟩)).SetPiece m.From none).SetPiece
              m.From (some ⟨p.type, p.color, true⟩)).SetPiece m.To none, true) := by
      unfold Board.MovePiece
      rw [if_neg (by simp [hfv, ht]), hb1to]
    have hfinal : (b.tryMove player m).1
        = (((((b.SetPiece m.To (some ⟨p.type, p.color, true⟩)).SetPiece m.From none).SetPiece
              m.From (some ⟨p.type, p.color, true⟩)).SetPiece m.To none).SetPiece m.To
            (b.GetPiece m.To)) := by
      simp only [Board.tryMove, h1, h2]
    rw [hfinal]
    apply Board.strip_eq_of_getPiece
    intro q
    by_cases hqt : q = m.To
    · subst hqt
      rw [Board.GetPiece_SetPiece_same _ ht]
    · rw [Board.GetPiece_SetPiece_ne _ hqt, Board.GetPiece_SetPiece_ne _ hqt]
      by_cases hqf : q = m.From
      · subst hqf
        rw [Board.GetPiece_SetPiece_same _ hfv, hf]
        rfl
      · rw [Board.GetPiece_SetPiece_ne _ hqf, Board.GetPiece_SetPiece_ne _ hqf,
          Board.GetPiece_SetPiece_ne _ hqt]
  · have h1 : b.MovePiece m.From m.To = (b, false) := by
      unfold Board.MovePiece
      rw [if_pos (Or.inr ht)]
    have h2 : b.MovePiece m.To m.From = (b, false) := by
      unfold Board.MovePiece
      rw [if_pos (Or.inl ht)]
    have hfinal : (b.tryMove player m).1 = b.SetPiece m.To (b.GetPiece m.To) := by
      simp only [Board.tryMove, h1, h2]
    rw [hfinal, Board.SetPiece_invalid _ ht]

theorem Board.tryMovesLoop_restore (player : Color) :
    ∀ (ms : List Move) (b : Board),
      (∀ m ∈ ms, (∃ q, (b.strip).GetPiece m.From = some q) ∧ m.From ≠ m.To) →
      ((Board.tryMovesLoop player b ms).1).strip = b.strip := by
  intro ms
  induction ms with
  | nil => intro b _; rfl
  | cons m rest ih =>
    intro b hH
    obtain ⟨⟨q, hq⟩, hne⟩ := hH m (List.mem_cons_self m rest)
    rw [Board.GetPiece_strip] at hq
    obtain ⟨p, hp, _⟩ := Option.map_eq_some'.mp hq
    have hres : ((b.tryMove player m).1).strip = b.strip :=
      Board.tryMove_restore hp hne player
    simp only [Board.tryMovesLoop]
    split
    · exact hres
    · rw [ih (b.tryMove player m).1 ?_]
      · exact hres
      · intro m' hm'
        rw [hres]
        exact hH m' (List.mem_cons_of_mem m hm')

theorem Board.mem_GetValidMoves {b : Board} {pos : Position} {m : Move}
    (h : m ∈ b.GetValidMoves pos) :
    ∃ piece, b.GetPiece pos = some piece ∧ m.From = pos ∧
      b.IsValidMove m piece.color = true := by
  unfold Board.GetValidMoves at h
  cases hp : b.GetPiece pos with
  | none => rw [hp] at h; simp at h
  | some piece =>
    rw [hp] at h
    simp only [List.mem_map, List.mem_filter] at h
    obtain ⟨t, ⟨_, hvalid⟩, rfl⟩ := h
    exact ⟨piece, rfl, rfl, hvalid⟩

theorem Board.hasValidMovesAux_restore (player : Color) :
    ∀ (ps : List Position) (b : Board),
      ((Board.hasValidMovesAux player b ps).1).strip = b.strip := by
  intro ps
  induction ps with
  | nil => intro b; rfl
  | cons pos rest ih =>
    intro b
    simp only [Board.hasValidMovesAux]
    cases hp : b.GetPiece pos with
    | none => exact ih b
    | some piece =>
      dsimp only
      by_cases hpc : piece.color = player
      · rw [if_pos hpc]
        have hloop : ((Board.tryMovesLoop player b (b.GetValidMoves pos)).1).strip = b.strip := by
          apply Board.tryMovesLoop_restore
          intro m hm
          obtain ⟨pc, hpcpos, hfrom, hvalid⟩ := Board.mem_GetValidMoves hm
          refine ⟨⟨pc.strip, ?_⟩, Board.IsValidMove_from_ne_to hvalid⟩
          rw [Board.GetPiece_strip, hfrom, hpcpos]
          rfl
        split
        · exact hloop
        · rw [ih _, hloop]
      · rw [if_neg hpc]
        exact ih b

end Chess

open Chess

theorem position_roundtrip_fin :
    ∀ (r c : Fin 8),
      FromAlgebraic (Position.String ⟨(r : Int), (c : Int)⟩) = .ok ⟨(r : Int), (c : Int)⟩ := by
  decide

/-- C10: `IsValidMove` applied to a null move (`from = to`) is always
`false`: an empty from-square is rejected, and an occupied from-square
makes the destination hold a piece of the mover's own color. -/
theorem isValidMove_from_eq_to_false :
    ∀ (b : Board) (player : Color) (p : Position),
      b.IsValidMove (NewMove p p) player = false := by
  intro b player p
  unfold Board.IsValidMove
  cases h : b.GetPiece (NewMove p p).From with
  | none => rfl
  | some piece =>
    dsimp only
    have hto : b.GetPiece (NewMove p p).To = some piece := h
    rw [hto]
    by_cases hc : piece.color = player <;> simp [hc]

/-- C5: for every coordinate with both components in `[0,7]`, parsing
the algebraic text produced for it returns the same coordinate:
`FromAlgebraic (Position.String ⟨r, c⟩) = ok ⟨r, c⟩`. -/
theorem fromAlgebraic_string_roundtrip (r c : Int)
    (hr : 0 ≤ r ∧ r ≤ 7) (hc : 0 ≤ c ∧ c ≤ 7) :
    FromAlgebraic (Position.String ⟨r, c⟩) = .ok ⟨r, c⟩ := by
  have h := position_roundtrip_fin ⟨r.toNat, by omega⟩ ⟨c.toNat, by omega⟩
  simp only [Fin.val_mk] at h
  rwa [Int.toNat_of_nonneg hr.1, Int.toNat_of_nonneg hc.1] at h

/-- Witness for C5 at the concrete coordinate (3, 4). -/
theorem fromAlgebraic_string_roundtrip_witness :
    ((0 : Int) ≤ 3 ∧ (3 : Int) ≤ 7) ∧
      FromAlgebraic (Position.String ⟨3, 4⟩) = .ok ⟨3, 4⟩ :=
  ⟨by decide, fromAlgebraic_string_roundtrip 3 4 (by decide) (by decide)⟩

theorem fromAlgebraic_pair (b0 b1 : Nat) :
    FromAlgebraic [b0, b1] =
      (if ¬ ((⟨8 - (((b1 + 256 - 48) % 256 : Nat) : Int),
              (((b0 + 256 - 97) % 256 : Nat) : Int)⟩ : Position).IsValid = true)
       then .error .invalidPosition
       else .ok ⟨8 - (((b1 + 256 - 48) % 256 : Nat) : Int),
                 (((b0 + 256 - 97) % 256 : Nat) : Int)⟩) :=
  rfl

theorem fromAlgebraic_pair_ok_iff (b0 b1 : Nat) (hb0 : b0 < 256) (hb1 : b1 < 256) :
    (∃ p, FromAlgebraic [b0, b1] = .ok p) ↔
      (0 ≤ (b0 : Int) - 97 ∧ (b0 : Int) - 97 ≤ 7 ∧
        0 ≤ 8 - ((b1 : Int) - 48) ∧ 8 - ((b1 : Int) - 48) ≤ 7) := by
  rw [fromAlgebraic_pair]
  by_cases hv : (⟨8 - (((b1 + 256 - 48) % 256 : Nat) : Int),
      (((b0 + 256 - 97) % 256 : Nat) : Int)⟩ : Position).IsValid = true
  · rw [if_neg (by simpa using hv)]
    rw [Position.isValid_iff] at hv
    simp only at hv
    constructor
    · intro _
      refine ⟨?_, ?_, ?_, ?_⟩ <;> omega
    · intro _
      exact ⟨_, rfl⟩
  · rw [if_pos (by simpa using hv)]
    constructor
    · rintro ⟨p, hp⟩
      cases hp
    · intro hok
      exfalso
      apply hv
      rw [Position.isValid_iff]
      simp only
      omega

/-- C6: for every byte string, `FromAlgebraic` succeeds exactly when the
length is 2 and the decoded column (first byte minus `'a'`) and decoded
row (8 minus the digit value of the second byte) both lie in `[0,7]`;
every other input yields an error. -/
theorem fromAlgebraic_ok_iff (s : GoStr) (hbytes : ∀ b ∈ s, b < 256) :
    (∃ p, FromAlgebraic s = .ok p) ↔
      (s.length = 2 ∧
        0 ≤ (s.getD 0 0 : Int) - 97 ∧ (s.getD 0 0 : Int) - 97 ≤ 7 ∧
        0 ≤ 8 - ((s.getD 1 0 : Int) - 48) ∧ 8 - ((s.getD 1 0 : Int) - 48) ≤ 7) := by
  by_cases hlen : s.length = 2
  · match s, hlen with
    | [b0, b1], _ =>
      have hb0 : b0 < 256 := hbytes b0 (by simp)
      have hb1 : b1 < 256 := hbytes b1 (by simp)
      rw [fromAlgebraic_pair_ok_iff b0 b1 hb0 hb1]
      simp only [List.getD_cons_zero, List.getD_cons_succ, List.length_cons, List.length_nil]
      exact ⟨fun h => ⟨trivial, h⟩, fun h => h.2⟩
  · have herr : FromAlgebraic s = .error .invalidNotation := by
      unfold FromAlgebraic
      rw [if_pos hlen]
    constructor
    · rintro ⟨p, hp⟩
      rw [herr] at hp
      cases hp
    · rintro ⟨h2, -⟩
      exact absurd h2 hlen

/-- Witness for C6 at the concrete string `"e4"` (bytes 101, 52). -/
theorem fromAlgebraic_ok_iff_witness :
    (∀ b ∈ ([101, 52] : GoStr), b < 256) ∧
      ((∃ p, FromAlgebraic [101, 52] = .ok p) ↔
        (([101, 52] : GoStr).length = 2 ∧
          0 ≤ (([101, 52] : GoStr).getD 0 0 : Int) - 97 ∧
          (([101, 52] : GoStr).getD 0 0 : Int) - 97 ≤ 7 ∧
          0 ≤ 8 - ((([101, 52] : GoStr).getD 1 0 : Int) - 48) ∧
          8 - ((([101, 52] : GoStr).getD 1 0 : Int) - 48) ≤ 7)) :=
  ⟨by decide, fromAlgebraic_ok_iff [101, 52] (by decide)⟩

/-- C1: whenever `MakeMove` returns an error — a notation parse failure
on either endpoint or an `IsValidMove` rejection — the game is returned
unchanged: same board, side to move, state and history. -/
theorem makeMove_error_preserves_game (g : Game) (f t : GoStr) (e : MoveError)
    (h : (g.MakeMove f t).1 = .error e) : (g.MakeMove f t).2 = g := by
  unfold Game.MakeMove at h ⊢
  cases hf : FromAlgebraic f with
  | error e1 => rfl
  | ok fromPos =>
    rw [hf] at h
    cases ht : FromAlgebraic t with
    | error e2 => rfl
    | ok toPos =>
      rw [ht] at h
      dsimp only at h ⊢
      by_cases hv : ¬ (g.Board.IsValidMove (NewMove fromPos toPos) g.CurrentPlayer = true)
      · rw [if_pos hv]
      · rw [if_neg hv] at h
        simp at h

/-- Witness for C1: from the initial position, `MakeMove "z9" "a2"`
fails to parse and the game is unchanged. -/
theorem makeMove_error_preserves_game_witness :
    (NewGame.MakeMove [122, 57] [97, 50]).2 = NewGame :=
  makeMove_error_preserves_game NewGame [122, 57] [97, 50]
    (.invalidFrom .invalidPosition) (by decide)

/-- C9 (code evidence): in the move-ordering score the +30 development
bonus is keyed on `(White ∧ From.Row = 0) ∨ (Black ∧ From.Row = 7)` —
the opponent's back rank, since `setupInitialPosition` places White on
row 7.  The White knight developing move b1→c3 (from row 7) scores only
the +50 center bonus, while a White knight sitting on row 0 (Black's
back rank) does receive the +30. -/
theorem moveOrderScore_development_bonus_rows :
    freshAI.moveOrderScore NewGame 0 (NewMove ⟨7, 1⟩ ⟨5, 2⟩) = 50 ∧
      freshAI.moveOrderScore knightCornerGame 0 (NewMove ⟨0, 1⟩ ⟨2, 2⟩) = 80 := by
  exact ⟨by decide, by decide⟩

/-- C7: a pawn move is valid exactly when it is a one-square forward
move onto an empty square, a two-square forward move from the color's
starting rank with both squares empty, or a one-square diagonal forward
capture of an opposing piece; nothing else (no en passant, no
promotion). -/
theorem isValidPawnMove_iff (b : Board) (m : Move) (piece : Piece) :
    b.isValidPawnMove m piece = true ↔
      ((m.To.Col = m.From.Col ∧ m.To.Row = m.From.Row + pawnDirection piece.color ∧
          b.GetPiece m.To = none) ∨
       (m.To.Col = m.From.Col ∧ m.To.Row = m.From.Row + 2 * pawnDirection piece.color ∧
          m.From.Row = pawnStartRow piece.color ∧ b.GetPiece m.To = none ∧
          b.GetPiece (NewPosition (m.From.Row + pawnDirection piece.color) m.From.Col) = none) ∨
       ((m.To.Col = m.From.Col + 1 ∨ m.To.Col = m.From.Col - 1) ∧
          m.To.Row = m.From.Row + pawnDirection piece.color ∧
          ∃ q, b.GetPiece m.To = some q ∧ q.color ≠ piece.color)) := by
  have hdval : pawnDirection piece.color = 1 ∨ pawnDirection piece.color = -1 := by
    unfold pawnDirection
    by_cases hc : piece.color = .Black
    · rw [if_pos hc]; left; rfl
    · rw [if_neg hc]; right; rfl
  unfold Board.isValidPawnMove
  dsimp only
  split_ifs with h1 h2 h3
  · rw [Option.isNone_iff_eq_none]
    constructor
    · intro hnone
      exact Or.inl ⟨by omega, by omega, hnone⟩
    · rintro (⟨-, -, hnone⟩ | ⟨hc, hr, -, -, -⟩ | ⟨hc, hr, -⟩)
      · exact hnone
      · exfalso; rcases hdval with hd | hd <;> omega
      · exfalso; rcases hdval with hd | hd <;> omega
  · rw [Bool.and_eq_true, Option.isNone_iff_eq_none, Option.isNone_iff_eq_none]
    constructor
    · rintro ⟨hnone1, hnone2⟩
      exact Or.inr (Or.inl ⟨by omega, by omega, by omega, hnone1, hnone2⟩)
    · rintro (⟨hc, hr, -⟩ | ⟨-, -, -, hnone1, hnone2⟩ | ⟨hc, hr, -⟩)
      · exact absurd ⟨by omega, by omega⟩ h1
      · exact ⟨hnone1, hnone2⟩
      · exfalso; rcases hdval with hd | hd <;> omega
  · cases hg : b.GetPiece m.To with
    | none =>
      simp only [Bool.false_eq_true, false_iff]
      rintro (⟨hc, hr, -⟩ | ⟨hc, hr, -, -, -⟩ | ⟨-, -, q, hq, -⟩)
      · exact absurd ⟨by omega, by omega⟩ h1
      · exact absurd ⟨by omega, by omega, by omega⟩ h2
      · cases hq
    | some dp =>
      simp only [decide_eq_true_eq]
      constructor
      · intro hne
        refine Or.inr (Or.inr ⟨?_, by omega, dp, rfl, hne⟩)
        omega
      · rintro (⟨hc, hr, -⟩ | ⟨hc, hr, -, -, -⟩ | ⟨-, -, q, hq, hqc⟩)
        · exact absurd ⟨by omega, by omega⟩ h1
        · exact absurd ⟨by omega, by omega, by omega⟩ h2
        · cases hq
          exact hqc
  · simp only [Bool.false_eq_true, false_iff]
    rintro (⟨hc, hr, -⟩ | ⟨hc, hr, hs, -, -⟩ | ⟨hc, hr, -⟩)
    · exact absurd ⟨by omega, by omega⟩ h1
    · exact absurd ⟨by omega, by omega, by omega⟩ h2
    · exact absurd ⟨by omega, by omega⟩ h3

/-- C3 (counterexample to the claim as stated): `hasValidMoves` does not
leave every square with exactly its prior contents.  On the initial
position the first tried move is the a2 pawn's, and `MovePiece` sets its
`HasMoved` flag, which the undo sequence never clears: square (6,0)
afterwards holds the pawn with `HasMoved = true` instead of `false`. -/
theorem hasValidMoves_changes_square_contents_cex :
    ((NewGame.hasValidMoves .White).1).GetPiece ⟨6, 0⟩ ≠ NewGame.Board.GetPiece ⟨6, 0⟩ := by
  decide

/-- C3 (amended): a call to `hasValidMoves` restores every square's
occupancy, piece kind and piece color — the board is unchanged except
that the `HasMoved` flag of tried pieces may have been set. -/
theorem hasValidMoves_preserves_squares_mod_hasMoved :
    ∀ (g : Game) (player : Color) (pos : Position),
      (((g.hasValidMoves player).1).GetPiece pos).map Piece.strip
        = (g.Board.GetPiece pos).map Piece.strip := by
  intro g player pos
  have h := Board.hasValidMovesAux_restore player allPositions g.Board
  exact Board.getPiece_strip_eq h pos

theorem updateGameState_currentPlayer (g : Game) :
    (g.updateGameState).CurrentPlayer = g.CurrentPlayer := by
  simp only [Game.updateGameState, apply_ite Game.CurrentPlayer]
  split_ifs <;> rfl

theorem updateGameState_board (g : Game) :
    (g.updateGameState).Board = (g.hasValidMoves g.CurrentPlayer).1 := by
  simp only [Game.updateGameState, apply_ite Game.Board]
  split_ifs <;> rfl

theorem updateGameState_state (g : Game) :
    (g.updateGameState).State =
      (if g.isInCheck g.CurrentPlayer then
        (if (g.hasValidMoves g.CurrentPlayer).2 then GameState.Check else GameState.Checkmate)
      else if (g.hasValidMoves g.CurrentPlayer).2 then GameState.Playing
      else GameState.Stalemate) := by
  simp only [Game.updateGameState, apply_ite Game.State]
  by_cases hchk : g.isInCheck g.CurrentPlayer = true
  · simp [hchk]
  · by_cases hr2 : (g.hasValidMoves g.CurrentPlayer).2 = true
    · simp [hchk, hr2]
    · simp [hchk, hr2]

theorem updateGameState_isInCheck_eq (g : Game) :
    (g.updateGameState).isInCheck (g.updateGameState).CurrentPlayer
      = g.isInCheck g.CurrentPlayer := by
  rw [updateGameState_currentPlayer]
  show ((g.updateGameState).Board).isInCheckB g.CurrentPlayer = g.Board.isInCheckB g.CurrentPlayer
  rw [updateGameState_board]
  have hrs : ((Board.hasValidMovesAux g.CurrentPlayer g.Board allPositions).1).strip
      = g.Board.strip := Board.hasValidMovesAux_restore _ _ _
  show ((Board.hasValidMovesAux g.CurrentPlayer g.Board allPositions).1).isInCheckB
      g.CurrentPlayer = g.Board.isInCheckB g.CurrentPlayer
  rw [← Board.isInCheckB_strip, hrs, Board.isInCheckB_strip]

theorem updateGameState_hasValidMoves_eq (g : Game) :
    ((g.updateGameState).hasValidMoves (g.updateGameState).CurrentPlayer).2
      = (g.hasValidMoves g.CurrentPlayer).2 := by
  rw [updateGameState_currentPlayer]
  show (Board.hasValidMovesAux g.CurrentPlayer ((g.updateGameState).Board) allPositions).2
      = (Board.hasValidMovesAux g.CurrentPlayer g.Board allPositions).2
  rw [updateGameState_board]
  have hrs : ((Board.hasValidMovesAux g.CurrentPlayer g.Board allPositions).1).strip
      = g.Board.strip := Board.hasValidMovesAux_restore _ _ _
  exact (Board.hasValidMovesAux_congr g.CurrentPlayer allPositions hrs).2

/-- C2: after every successfully applied move, the resulting state label
is exactly the classification of the position for the new side to move:
`Check` if in check with a legal escape, `Checkmate` if in check without
one, `Stalemate` if not in check and without any legal move, `Playing`
otherwise. -/
theorem makeMove_recomputes_state_classification (g : Game) (f t : GoStr)
    (h : (g.MakeMove f t).1 = .ok ()) :
    (g.MakeMove f t).2.State =
      (if (g.MakeMove f t).2.isInCheck (g.MakeMove f t).2.CurrentPlayer then
        (if ((g.MakeMove f t).2.hasValidMoves (g.MakeMove f t).2.CurrentPlayer).2 then
          GameState.Check
        else GameState.Checkmate)
      else if ((g.MakeMove f t).2.hasValidMoves (g.MakeMove f t).2.CurrentPlayer).2 then
        GameState.Playing
      else GameState.Stalemate) := by
  unfold Game.MakeMove at h ⊢
  cases hf : FromAlgebraic f with
  | error e1 => rw [hf] at h; simp at h
  | ok fromPos =>
    rw [hf] at h
    cases ht : FromAlgebraic t with
    | error e2 => rw [ht] at h; simp at h
    | ok toPos =>
      rw [ht] at h
      dsimp only at h ⊢
      by_cases hv : ¬ (g.Board.IsValidMove (NewMove fromPos toPos) g.CurrentPlayer = true)
      · rw [if_pos hv] at h; simp at h
      · rw [if_neg hv]
        dsimp only
        rw [updateGameState_state, updateGameState_isInCheck_eq,
          updateGameState_hasValidMoves_eq]

/-- Witness for C2: a lone White king on e4 moves to e5; the resulting
game for Black (no pieces, not in check, no legal move) classifies as
`Stalemate`, matching the classification expression. -/
theorem makeMove_recomputes_state_classification_witness :
    (kingOnlyGame.MakeMove [101, 52] [101, 53]).2.State =
      (if (kingOnlyGame.MakeMove [101, 52] [101, 53]).2.isInCheck
          (kingOnlyGame.MakeMove [101, 52] [101, 53]).2.CurrentPlayer then
        (if ((kingOnlyGame.MakeMove [101, 52] [101, 53]).2.hasValidMoves
            (kingOnlyGame.MakeMove [101, 52] [101, 53]).2.CurrentPlayer).2 then
          GameState.Check
        else GameState.Checkmate)
      else if ((kingOnlyGame.MakeMove [101, 52] [101, 53]).2.hasValidMoves
          (kingOnlyGame.MakeMove [101, 52] [101, 53]).2.CurrentPlayer).2 then
        GameState.Playing
      else GameState.Stalemate) :=
  makeMove_recomputes_state_classification kingOnlyGame [101, 52] [101, 53] (by decide)

/-- C4: `GetBestMove` never mutates the caller's game — the source only
reads through the `game` pointer (all exploration runs on `copyGame`
clones), so the game threaded through the embedding comes back with the
same board contents at every square, the same side to move, the same
state label and the same move history. -/
theorem getBestMove_preserves_callers_game :
    ∀ (ai : AI) (g : Game),
      (∀ pos, ((ai.GetBestMove g).game).Board.GetPiece pos = g.Board.GetPiece pos) ∧
        ((ai.GetBestMove g).game).CurrentPlayer = g.CurrentPlayer ∧
        ((ai.GetBestMove g).game).State = g.State ∧
        ((ai.GetBestMove g).game).MoveHistory = g.MoveHistory := by
  intro ai g
  have hg : (ai.GetBestMove g).game = g := by
    simp only [AI.GetBestMove]
    split_ifs <;> rfl
  rw [hg]
  exact ⟨fun _ => rfl, rfl, rfl, rfl⟩

/-- C8: when `minimax` reaches the no-pseudo-legal-moves branch (the
transposition probe did not return early, `depth > 0`, state `Playing`,
empty move list), it returns the mate score of magnitude `1000 − ply` —
negative for a maximizing node, positive for a minimizing one — if the
side to move is in check, and exactly `0` otherwise. -/
theorem minimax_no_moves_terminal_scores (d : Nat) (ai : AI) (g : Game)
    (isMaximizing : Bool) (alpha beta alpha' beta' : Score) (ply : Nat)
    (hprobe : ai.ttProbe (ai.hashPosition g) ((d : Int) + 1) alpha beta = .ok (alpha', beta'))
    (hstate : g.State = .Playing)
    (hmoves : ai.getAllPossibleMoves g = []) :
    (AI.minimaxAux (d + 1) ai g isMaximizing alpha beta ply).1 =
      (if g.isInCheck g.CurrentPlayer then
        (if isMaximizing then Score.val (-(1000 - (ply : ℚ)))
         else Score.val (1000 - (ply : ℚ)))
      else Score.val 0) := by
  simp only [AI.minimaxAux]
  rw [hprobe]
  dsimp only
  rw [if_neg (by simp [hstate])]
  simp only [hmoves, List.isEmpty_nil, if_true, AI.isInCheck]
  split_ifs with h1 h2
  · show Score.val (-1000 + (ply : ℚ)) = Score.val (-(1000 - (ply : ℚ)))
    congr 1
    ring
  · rfl
  · rfl

/-- Witness for C8 at a concrete node: empty board, `Playing`, White to
move, fresh engine, depth 1, maximizing, ply 1 — no pseudo-legal moves,
not in check, score exactly 0. -/
theorem minimax_no_moves_terminal_scores_witness :
    (AI.minimaxAux (0 + 1) freshAI emptyGame true Score.ninf Score.pinf 1).1 =
      (if emptyGame.isInCheck emptyGame.CurrentPlayer then
        (if (true : Bool) then Score.val (-(1000 - ((1 : Nat) : ℚ)))
         else Score.val (1000 - ((1 : Nat) : ℚ)))
      else Score.val 0) :=
  minimax_no_moves_terminal_scores 0 freshAI emptyGame true Score.ninf Score.pinf
    Score.ninf Score.pinf 1 rfl rfl rfl
